import Mathlib

/-!
# sysrag.bpf.c : the execve hook and its event channel

Embedding of `src/bpf/src/sysrag.bpf.c`.  The hook `trace_execve` is translated
statement by statement.  The kernel side it calls into (the ring buffer behind the
`events` map and the `bpf_get_current_*` helpers) is not part of the repository
sources; the values the identity helpers return are inputs (`Env`), and the ring
buffer and the command-name copy are modelled from the specification.

Bytes are natural numbers (intended range `0..255`); `u32`/`u64` values are natural
numbers reduced modulo `2^32` / `2^64` where the C code stores or returns them.
-/

namespace SysRag

/-! ## struct process_event -/

/-- Length of `char comm[16]`. -/
def COMM_LEN : Nat := 16

/-- Offset of `u32 pid` inside `struct process_event`. -/
def PID_OFF : Nat := 0

/-- Offset of `u32 uid` inside `struct process_event`. -/
def UID_OFF : Nat := 4

/-- Offset of `char comm[16]` inside `struct process_event`. -/
def COMM_OFF : Nat := 8

/-- Value of `sizeof(struct process_event)`: `u32 pid; u32 uid; char comm[16]`. -/
def sizeof_process_event : Nat := 4 + 4 + COMM_LEN

/-- Value of `max_entries` of the `events` map: `256 * 1024`. -/
def MAX_ENTRIES : Nat := 256 * 1024

/-! ## The bounded channel (the `events` ring buffer) -/

/-- Life-cycle state of a slot that is not free.  A free slot is capacity that no
entry of `Channel.slots` accounts for. -/
inductive SlotState where
  | Reserved
  | Committed
  deriving DecidableEq, Repr

/-- A slot of the channel: its life-cycle state and the bytes of its memory. -/
structure Slot where
  state : SlotState
  mem : List Nat
  deriving DecidableEq, Repr

/-- Modelled from the spec: the bounded channel behind the `events` map (the kernel
ring buffer is not in the sources).  A fixed capacity in bytes and the slots that are
not free, oldest reservation first. -/
structure Channel where
  capacity : Nat
  slots : List Slot
  deriving DecidableEq, Repr

/-- Bytes of capacity claimed by the slots that are not free. -/
def Channel.used (ch : Channel) : Nat :=
  (ch.slots.map (fun s => s.mem.length)).sum

/-- The records visible to the consumer: memory of the committed slots, oldest first. -/
def Channel.committed (ch : Channel) : List (List Nat) :=
  (ch.slots.filter (fun s => s.state = SlotState.Committed)).map (fun s => s.mem)

/-- The slots that a producer still owns. -/
def Channel.reserved (ch : Channel) : List Slot :=
  ch.slots.filter (fun s => s.state = SlotState.Reserved)

/-- The `events` map as declared: an empty channel of `capacity` bytes. -/
def Channel.create (capacity : Nat) : Channel :=
  ⟨capacity, []⟩

/-- The `events` map of the program. -/
def events : Channel := Channel.create MAX_ENTRIES

/-- A helper call issued by the hook. -/
inductive Call where
  | ringbuf_reserve (size flags : Nat)
  | get_current_pid_tgid
  | get_current_uid_gid
  | get_current_comm (size : Nat)
  | ringbuf_submit (flags : Nat)
  deriving DecidableEq, Repr

/-- What the hook can touch: the `events` channel, and the record of the helper calls
issued so far (oldest first). -/
structure World where
  events : Channel
  calls : List Call
  deriving DecidableEq, Repr

/-- The ambient execution context of one hook invocation: what the identity helpers
return, the current command name, and the bytes lying in the memory that a
reservation hands out (left there by earlier use). -/
structure Env where
  pid_tgid : Nat
  uid_gid : Nat
  comm : List Nat
  stale : List Nat
  deriving DecidableEq, Repr

/-- Record a helper call. -/
def World.record (w : World) (c : Call) : World :=
  { w with calls := w.calls ++ [c] }

/-- Replace the slot list of the channel. -/
def World.with_slots (w : World) (slots : List Slot) : World :=
  { w with events := { w.events with slots := slots } }

/-- Apply `f` to the slot at index `i`; no slot there, no change. -/
def modify_slot (f : Slot → Slot) : List Slot → Nat → List Slot
  | [], _ => []
  | s :: ss, 0 => f s :: ss
  | s :: ss, i + 1 => s :: modify_slot f ss i

/-- Memory of a freshly reserved slot of `size` bytes holding whatever `stale` had. -/
def fresh_mem (stale : List Nat) (size : Nat) : List Nat :=
  (stale ++ List.replicate size 0).take size

/-- Modelled from the spec: `bpf_ringbuf_reserve(&events, size, flags)`, the channel
operation `reserve(size) -> Slot | Failure(NoSpace)`.  Claims `size` bytes of capacity
when that much is free and returns the handle of the new `Reserved` slot (its index
among the slots, valid until the consumer next reads); otherwise fails with `none`
(the NULL pointer) and leaves the channel as it was. -/
def bpf_ringbuf_reserve (env : Env) (w : World) (size flags : Nat) : Option Nat × World :=
  let w1 := w.record (Call.ringbuf_reserve size flags)
  if w.events.used + size ≤ w.events.capacity then
    (some w.events.slots.length,
      w1.with_slots (w.events.slots ++ [⟨SlotState.Reserved, fresh_mem env.stale size⟩]))
  else
    (none, w1)

/-- The helper `bpf_get_current_pid_tgid()`: the `u64` of the execution context. -/
def bpf_get_current_pid_tgid (env : Env) (w : World) : Nat × World :=
  (env.pid_tgid % 2 ^ 64, w.record Call.get_current_pid_tgid)

/-- The helper `bpf_get_current_uid_gid()`: the `u64` of the execution context. -/
def bpf_get_current_uid_gid (env : Env) (w : World) : Nat × World :=
  (env.uid_gid % 2 ^ 64, w.record Call.get_current_uid_gid)

/-- Overwrite `bs.length` bytes of `mem` from offset `off`; a store that does not fit
inside `mem` is not performed. -/
def write_bytes (mem : List Nat) (off : Nat) (bs : List Nat) : List Nat :=
  if off + bs.length ≤ mem.length then
    mem.take off ++ bs ++ mem.drop (off + bs.length)
  else
    mem

/-- Modelled from the spec: byte order of a stored `u32` (section 6: little-endian;
the target is not fixed by the sources). -/
def le_bytes4 (v : Nat) : List Nat :=
  [v % 256, v / 256 % 256, v / 65536 % 256, v / 16777216 % 256]

/-- A store through the `event` pointer: write `bs` at offset `off` of the slot. -/
def store_bytes (w : World) (event off : Nat) (bs : List Nat) : World :=
  w.with_slots (modify_slot (fun s => { s with mem := write_bytes s.mem off bs }) w.events.slots event)

/-- An assignment to a `u32` field of `*event`: the value is truncated to 32 bits. -/
def store_u32 (w : World) (event off v : Nat) : World :=
  store_bytes w event off (le_bytes4 (v % 2 ^ 32))

/-- Modelled from the spec: the bytes `bpf_get_current_comm` produces for a buffer of
`size` bytes: the command name truncated to `size` bytes, zero-padded when shorter. -/
def comm_bytes (name : List Nat) (size : Nat) : List Nat :=
  name.take size ++ List.replicate (size - name.length) 0

/-- The helper `bpf_get_current_comm(buf, size)` with `buf` at offset `off` of `*event`. -/
def bpf_get_current_comm (env : Env) (w : World) (event off size : Nat) : World :=
  store_bytes (w.record (Call.get_current_comm size)) event off (comm_bytes env.comm size)

/-- Modelled from the spec: `bpf_ringbuf_submit(event, flags)`, the channel operation
`commit(slot)`: a `Reserved` slot becomes `Committed`, in place. -/
def bpf_ringbuf_submit (w : World) (event flags : Nat) : World :=
  (w.record (Call.ringbuf_submit flags)).with_slots
    (modify_slot (fun s => { s with state := SlotState.Committed }) w.events.slots event)

/-! ## The hook -/

/-- The hook `int trace_execve(void *ctx)`. -/
def trace_execve (_ctx : Nat) (env : Env) (w : World) : Int × World :=
  match bpf_ringbuf_reserve env w sizeof_process_event 0 with
  | (none, w1) => (0, w1)
  | (some event, w1) =>
    let (id, w2) := bpf_get_current_pid_tgid env w1
    let w3 := store_u32 w2 event PID_OFF (id >>> 32)
    let (ug, w4) := bpf_get_current_uid_gid env w3
    let w5 := store_u32 w4 event UID_OFF ug
    let w6 := bpf_get_current_comm env w5 event COMM_OFF COMM_LEN
    let w7 := bpf_ringbuf_submit w6 event 0
    (0, w7)

/-! ## The record a capture produces -/

/-- The value the hook assigns to `event->pid`. -/
def pid_of (env : Env) : Nat := ((env.pid_tgid % 2 ^ 64) >>> 32) % 2 ^ 32

/-- The value the hook assigns to `event->uid`. -/
def uid_of (env : Env) : Nat := (env.uid_gid % 2 ^ 64) % 2 ^ 32

/-- The wire record of section 6: `pid` at 0..3, `uid` at 4..7, `command_name` at 8..23. -/
def encode_event (pid uid : Nat) (name : List Nat) : List Nat :=
  le_bytes4 pid ++ le_bytes4 uid ++ comm_bytes name COMM_LEN

/-- The record a successful capture in context `env` commits. -/
def record_of (env : Env) : List Nat :=
  encode_event (pid_of env) (uid_of env) env.comm

/-! ## The consumer -/

/-- Take the oldest committed slot out of the slot list. -/
def take_committed : List Slot → Option (List Nat) × List Slot
  | [] => (none, [])
  | s :: ss =>
    if s.state = SlotState.Committed then (some s.mem, ss)
    else ((take_committed ss).1, s :: (take_committed ss).2)

/-- Modelled from the spec: `read_next() -> Event | Empty`, the consumer side of the
channel (external to the sources): returns the oldest committed, unconsumed record, or
`none` when there is none; reading frees the capacity of the slot. -/
def read_next (ch : Channel) : Option (List Nat) × Channel :=
  ((take_committed ch.slots).1, { ch with slots := (take_committed ch.slots).2 })

/-- The consumer reading until the channel reports `Empty`, at most `fuel` records. -/
def drain : Nat → Channel → List (List Nat)
  | 0, _ => []
  | fuel + 1, ch =>
    match read_next ch with
    | (none, _) => []
    | (some r, ch1) => r :: drain fuel ch1

/-- A decoded record. -/
structure ProcessEvent where
  pid : Nat
  uid : Nat
  command_name : List Nat
  deriving DecidableEq, Repr

/-- The `u32` that four little-endian bytes stand for. -/
def le_u32 (bs : List Nat) : Nat :=
  bs.getD 0 0 + 256 * bs.getD 1 0 + 65536 * bs.getD 2 0 + 16777216 * bs.getD 3 0

/-- Modelled from the spec: the consumer decoding a record by the layout of section 6
(the consumer is external to the sources). -/
def decode_event (r : List Nat) : Option ProcessEvent :=
  if r.length = sizeof_process_event then
    some ⟨le_u32 ((r.drop PID_OFF).take 4), le_u32 ((r.drop UID_OFF).take 4),
      (r.drop COMM_OFF).take COMM_LEN⟩
  else
    none

/-- The newest record visible to the consumer, decoded. -/
def last_event (w : World) : Option ProcessEvent :=
  w.events.committed.getLast?.bind decode_event

/-! ## Sequences of hook invocations and consumer reads -/

/-- One step of a single producer and the consumer sharing the channel. -/
inductive Op where
  | hook (ctx : Nat) (env : Env)
  | read
  deriving DecidableEq, Repr

/-- Run one step; a hook invocation yields its return value. -/
def step_op (op : Op) (w : World) : Option Int × World :=
  match op with
  | Op.hook ctx env => (some (trace_execve ctx env w).1, (trace_execve ctx env w).2)
  | Op.read => (none, { w with events := (read_next w.events).2 })

/-- The world after a sequence of steps. -/
def run_ops : List Op → World → World
  | [], w => w
  | op :: ops, w => run_ops ops (step_op op w).2

/-- The return values of the hook invocations of a sequence of steps, in order. -/
def returns_of : List Op → World → List Int
  | [], _ => []
  | op :: ops, w =>
    match (step_op op w).1 with
    | some r => r :: returns_of ops (step_op op w).2
    | none => returns_of ops (step_op op w).2

/-- The hook invoked once per `(ctx, env)`, in order, by a single producer. -/
def hooks (invs : List (Nat × Env)) : List Op :=
  invs.map (fun i => Op.hook i.1 i.2)

/-- The world at attachment of a channel of `C` bytes, `calls` being the helper calls
on record. -/
def World.attach (C : Nat) (calls : List Call) : World :=
  ⟨Channel.create C, calls⟩

/-- The slot a successful capture in context `env` leaves behind. -/
def committed_slot (env : Env) : Slot :=
  ⟨SlotState.Committed, record_of env⟩

/-- What holds of a channel of capacity `C` that only the hook of a single producer
and the consumer have worked on: every slot is a committed 24-byte record and the
slots fit the capacity. -/
def single_producer_inv (C : Nat) (ch : Channel) : Prop :=
  ch.capacity = C ∧
  (∀ s ∈ ch.slots, s.state = SlotState.Committed ∧ s.mem.length = sizeof_process_event) ∧
  ch.used ≤ C

/-- The calls of an invocation whose reservation succeeds, in program order. -/
def calls_on_success : List Call :=
  [Call.ringbuf_reserve sizeof_process_event 0, Call.get_current_pid_tgid,
    Call.get_current_uid_gid, Call.get_current_comm COMM_LEN, Call.ringbuf_submit 0]

/-- Number of hook invocations in a sequence of steps. -/
def hook_count : List Op → Nat
  | [] => 0
  | Op.hook _ _ :: ops => hook_count ops + 1
  | Op.read :: ops => hook_count ops

/-! ## Concurrent producers -/

/-- Where a producer stands inside `trace_execve`: before the reservation, holding the
`event` handle after each of the statements that follow it, or returned. -/
inductive Pc where
  | entry
  | reserved (event : Nat)
  | pid_stored (event : Nat)
  | uid_stored (event : Nat)
  | comm_stored (event : Nat)
  | returned (ret : Int)
  deriving DecidableEq, Repr

/-- One statement of `trace_execve`, run by a producer standing at `pc`. -/
def hook_step (env : Env) (pc : Pc) (w : World) : Pc × World :=
  match pc with
  | Pc.entry =>
    match bpf_ringbuf_reserve env w sizeof_process_event 0 with
    | (none, w1) => (Pc.returned 0, w1)
    | (some event, w1) => (Pc.reserved event, w1)
  | Pc.reserved event =>
    let (id, w2) := bpf_get_current_pid_tgid env w
    (Pc.pid_stored event, store_u32 w2 event PID_OFF (id >>> 32))
  | Pc.pid_stored event =>
    let (ug, w4) := bpf_get_current_uid_gid env w
    (Pc.uid_stored event, store_u32 w4 event UID_OFF ug)
  | Pc.uid_stored event =>
    (Pc.comm_stored event, bpf_get_current_comm env w event COMM_OFF COMM_LEN)
  | Pc.comm_stored event =>
    (Pc.returned 0, bpf_ringbuf_submit w event 0)
  | Pc.returned r => (Pc.returned r, w)

/-- A producer running `n` statements of the hook on its own. -/
def hook_steps (env : Env) : Nat → Pc × World → Pc × World
  | 0, s => s
  | n + 1, s => hook_steps env n (hook_step env s.1 s.2)

/-- Producers sharing the channel: where each stands, and the world. -/
structure Sys where
  pcs : Nat → Pc
  world : World

/-- All producers about to enter the hook. -/
def Sys.start (w : World) : Sys :=
  ⟨fun _ => Pc.entry, w⟩

/-- Producer `i` (one of `M`, in context `envs i`) runs its next statement. -/
def sched_step (M : Nat) (envs : Nat → Env) (i : Nat) (s : Sys) : Sys :=
  if i < M then
    ⟨fun j => if j = i then (hook_step (envs i) (s.pcs i) s.world).1 else s.pcs j,
      (hook_step (envs i) (s.pcs i) s.world).2⟩
  else
    s

/-- An interleaving: the producers named by `sch` run one statement each, in turn. -/
def run_sched (M : Nat) (envs : Nat → Env) : List Nat → Sys → Sys
  | [], s => s
  | i :: sch, s => run_sched M envs sch (sched_step M envs i s)

/-- The slot of a producer standing at `pc`: what its stores have made so far of the
memory it reserved. -/
def slot_at (env : Env) (pc : Pc) : Slot :=
  match pc with
  | Pc.entry => ⟨SlotState.Reserved, []⟩
  | Pc.reserved _ => ⟨SlotState.Reserved, fresh_mem env.stale 24⟩
  | Pc.pid_stored _ =>
    ⟨SlotState.Reserved, write_bytes (fresh_mem env.stale 24) 0 (le_bytes4 (pid_of env))⟩
  | Pc.uid_stored _ =>
    ⟨SlotState.Reserved,
      write_bytes (write_bytes (fresh_mem env.stale 24) 0 (le_bytes4 (pid_of env))) 4
        (le_bytes4 (uid_of env))⟩
  | Pc.comm_stored _ => ⟨SlotState.Reserved, record_of env⟩
  | Pc.returned _ => ⟨SlotState.Committed, record_of env⟩

/-- Producer at `pc` owns the slot with handle `e` (or has committed it and returned 0). -/
def owns (pc : Pc) (e : Nat) : Prop :=
  match pc with
  | Pc.entry => False
  | Pc.reserved x => x = e
  | Pc.pid_stored x => x = e
  | Pc.uid_stored x => x = e
  | Pc.comm_stored x => x = e
  | Pc.returned r => r = 0

/-- What holds during an interleaving started on `w0`: the producers `owners` (in
the order of their reservations) have left the entry; behind the slots of `w0` the
channel holds one slot for each of them, and each stands where its slot says. -/
def conc_inv (M : Nat) (envs : Nat → Env) (w0 : World) (s : Sys) (owners : List Nat) : Prop :=
  owners.Nodup ∧
  (∀ i ∈ owners, i < M) ∧
  s.world.events.capacity = w0.events.capacity ∧
  s.world.events.slots =
    w0.events.slots ++ owners.map (fun i => slot_at (envs i) (s.pcs i)) ∧
  (∀ i, i ∉ owners → s.pcs i = Pc.entry) ∧
  (∀ (p : Nat) (hp : p < owners.length), owns (s.pcs owners[p]) (w0.events.slots.length + p))

/-! ## Concrete inputs -/

/-- Process 100 (thread 7) of user 0 (group 0) running `bash`. -/
def env_bash : Env := ⟨100 * 2 ^ 32 + 7, 0, [98, 97, 115, 104], [1, 2, 3]⟩

/-- Process 4242 of user 1000 (group 50) running `this-name-is-too-long`. -/
def env_long : Env :=
  ⟨4242 * 2 ^ 32 + 4250, 50 * 2 ^ 32 + 1000,
    [116, 104, 105, 115, 45, 110, 97, 109, 101, 45, 105, 115, 45, 116, 111, 111, 45, 108,
      111, 110, 103],
    List.replicate 24 255⟩

/-- The world at attachment: the empty `events` channel, no helper call issued yet. -/
def world_attached : World := ⟨events, []⟩

/-- A world whose channel of 48 bytes is full: one committed and one reserved slot. -/
def world_full : World :=
  ⟨⟨48, [⟨SlotState.Committed, record_of env_bash⟩,
      ⟨SlotState.Reserved, List.replicate 24 0⟩]⟩, []⟩

/-- The contexts of two concurrent producers. -/
def two_envs (i : Nat) : Env :=
  if i = 0 then env_bash else env_long

/-- An interleaving of the two producers, five statements each. -/
def two_sched : List Nat := [0, 1, 1, 0, 1, 0, 0, 1, 1, 0]

/-! ## Basic facts -/

theorem fresh_mem_length (stale : List Nat) (size : Nat) :
    (fresh_mem stale size).length = size := by
  simp [fresh_mem]

theorem comm_bytes_length (name : List Nat) (size : Nat) :
    (comm_bytes name size).length = size := by
  simp [comm_bytes]; omega

theorem le_bytes4_length (v : Nat) : (le_bytes4 v).length = 4 := rfl

theorem modify_slot_append_last (f : Slot → Slot) (xs : List Slot) (s : Slot) :
    modify_slot f (xs ++ [s]) xs.length = xs ++ [f s] := by
  induction xs with
  | nil => rfl
  | cons x xs ih => simp [modify_slot, ih]

theorem write_record (m p u c : List Nat) (hm : m.length = 24) (hp : p.length = 4)
    (hu : u.length = 4) (hc : c.length = 16) :
    write_bytes (write_bytes (write_bytes m 0 p) 4 u) 8 c = p ++ u ++ c := by
  have h1 : write_bytes m 0 p = p ++ m.drop 4 := by
    simp [write_bytes, hm, hp]
  have h2 : write_bytes (p ++ m.drop 4) 4 u = p ++ u ++ m.drop 8 := by
    simp [write_bytes, hm, hp, hu, List.take_append_eq_append_take,
      List.drop_append_eq_append_drop]
  have h3 : write_bytes (p ++ u ++ m.drop 8) 8 c = p ++ u ++ c := by
    have e1 : List.take 8 p = p := List.take_of_length_le (by omega)
    have e2 : List.drop 24 p = [] := List.drop_of_length_le (by omega)
    have e3 : List.drop 20 u = [] := List.drop_of_length_le (by omega)
    have e4 : List.drop 24 m = [] := List.drop_of_length_le (by omega)
    simp [write_bytes, hm, hp, hu, hc, List.take_append_eq_append_take,
      List.drop_append_eq_append_drop, e1, e2, e3, e4]
  rw [h1, h2, h3]

theorem reserve_none_iff (env : Env) (w : World) (size flags : Nat) :
    (bpf_ringbuf_reserve env w size flags).1 = none ↔
      w.events.capacity < w.events.used + size := by
  unfold bpf_ringbuf_reserve
  by_cases h : w.events.used + size ≤ w.events.capacity
  · simp [h]
  · simp [h]; omega

theorem trace_execve_full (ctx : Nat) (env : Env) (w : World)
    (h : w.events.capacity < w.events.used + sizeof_process_event) :
    trace_execve ctx env w =
      (0, ⟨w.events, w.calls ++ [Call.ringbuf_reserve sizeof_process_event 0]⟩) := by
  have h1 : ¬ (w.events.used + sizeof_process_event ≤ w.events.capacity) := by omega
  simp [trace_execve, bpf_ringbuf_reserve, h1, World.record]

theorem trace_execve_room (ctx : Nat) (env : Env) (w : World)
    (h : w.events.used + sizeof_process_event ≤ w.events.capacity) :
    trace_execve ctx env w =
      (0, ⟨⟨w.events.capacity, w.events.slots ++ [⟨SlotState.Committed, record_of env⟩]⟩,
        w.calls ++ calls_on_success⟩) := by
  have hw := write_record (fresh_mem env.stale 24) (le_bytes4 (pid_of env))
    (le_bytes4 (uid_of env)) (comm_bytes env.comm 16) (fresh_mem_length _ _) rfl rfl
    (comm_bytes_length _ _)
  have h1 : w.events.used + 24 ≤ w.events.capacity := h
  have hp : (env.pid_tgid % 18446744073709551616) >>> 32 % 4294967296 = pid_of env := rfl
  have hu : env.uid_gid % 18446744073709551616 % 4294967296 = uid_of env := rfl
  simp only [trace_execve, bpf_ringbuf_reserve, World.record, World.with_slots,
    bpf_get_current_pid_tgid, bpf_get_current_uid_gid, bpf_get_current_comm,
    bpf_ringbuf_submit, store_u32, store_bytes,
    calls_on_success, record_of, encode_event, PID_OFF, UID_OFF, COMM_OFF, COMM_LEN,
    sizeof_process_event, Nat.reduceAdd, Nat.reducePow, if_pos h1,
    modify_slot_append_last, hp, hu, hw, List.append_assoc, List.cons_append,
    List.nil_append]

theorem reserve_isSome_iff (env : Env) (w : World) (size flags : Nat) :
    (bpf_ringbuf_reserve env w size flags).1.isSome = true ↔
      w.events.used + size ≤ w.events.capacity := by
  unfold bpf_ringbuf_reserve
  by_cases h : w.events.used + size ≤ w.events.capacity
  · simp [h]
  · simp [h]

theorem committed_append_committed (ch : Channel) (r : List Nat) :
    Channel.committed ⟨ch.capacity, ch.slots ++ [⟨SlotState.Committed, r⟩]⟩ =
      ch.committed ++ [r] := by
  simp [Channel.committed, List.filter_append]

theorem reserved_append_committed (ch : Channel) (r : List Nat) :
    Channel.reserved ⟨ch.capacity, ch.slots ++ [⟨SlotState.Committed, r⟩]⟩ =
      ch.reserved := by
  simp [Channel.reserved, List.filter_append]

theorem used_append (ch : Channel) (s : Slot) :
    Channel.used ⟨ch.capacity, ch.slots ++ [s]⟩ = ch.used + s.mem.length := by
  simp [Channel.used]

theorem record_of_length (env : Env) : (record_of env).length = 24 := by
  simp [record_of, encode_event, le_bytes4, comm_bytes_length, COMM_LEN]

theorem le_u32_le_bytes4 (v : Nat) : le_u32 (le_bytes4 v) = v % 2 ^ 32 := by
  simp only [le_u32, le_bytes4, List.getD_cons_zero, List.getD_cons_succ]
  omega

theorem decode_encode (pid uid : Nat) (name : List Nat) :
    decode_event (encode_event pid uid name) =
      some ⟨pid % 2 ^ 32, uid % 2 ^ 32, comm_bytes name COMM_LEN⟩ := by
  have hl : (comm_bytes name 16).length = 16 := comm_bytes_length _ _
  have h1 : (encode_event pid uid name).length = sizeof_process_event := by
    simp [encode_event, le_bytes4, hl, sizeof_process_event, COMM_LEN]
  have hp : ((encode_event pid uid name).drop PID_OFF).take 4 = le_bytes4 pid := by
    simp [encode_event, le_bytes4, PID_OFF]
  have hu : ((encode_event pid uid name).drop UID_OFF).take 4 = le_bytes4 uid := by
    simp [encode_event, le_bytes4, UID_OFF]
  have hc : ((encode_event pid uid name).drop COMM_OFF).take COMM_LEN =
      comm_bytes name COMM_LEN := by
    simp [encode_event, le_bytes4, COMM_OFF, hl, COMM_LEN]
  simp only [decode_event, h1, if_true, hp, hu, hc, le_u32_le_bytes4]

theorem pid_of_lt (env : Env) : pid_of env < 2 ^ 32 := by
  unfold pid_of; exact Nat.mod_lt _ (by norm_num)

theorem uid_of_lt (env : Env) : uid_of env < 2 ^ 32 := by
  unfold uid_of; exact Nat.mod_lt _ (by norm_num)

theorem pid_of_eq (env : Env) (h : env.pid_tgid < 2 ^ 64) :
    pid_of env = env.pid_tgid / 2 ^ 32 := by
  unfold pid_of
  rw [Nat.shiftRight_eq_div_pow, Nat.mod_eq_of_lt h]
  apply Nat.mod_eq_of_lt
  omega

theorem uid_of_eq (env : Env) (h : env.uid_gid < 2 ^ 64) :
    uid_of env = env.uid_gid % 2 ^ 32 := by
  unfold uid_of
  rw [Nat.mod_eq_of_lt h]

theorem comm_bytes_short (name : List Nat) (h : name.length ≤ COMM_LEN) :
    comm_bytes name COMM_LEN = name ++ List.replicate (COMM_LEN - name.length) 0 := by
  unfold comm_bytes
  rw [List.take_of_length_le h]

theorem comm_bytes_long (name : List Nat) (h : COMM_LEN < name.length) :
    comm_bytes name COMM_LEN = name.take COMM_LEN := by
  unfold comm_bytes
  have : COMM_LEN - name.length = 0 := by omega
  simp [this]

/-! ## The consumer -/

theorem take_committed_fst (ss : List Slot) :
    (take_committed ss).1 =
      ((ss.filter (fun s => s.state = SlotState.Committed)).map (fun s => s.mem)).head? := by
  induction ss with
  | nil => rfl
  | cons s ss ih =>
    by_cases hs : s.state = SlotState.Committed
    · simp [take_committed, hs]
    · simp [take_committed, hs, ih]

theorem take_committed_snd (ss : List Slot) :
    (((take_committed ss).2).filter (fun s => s.state = SlotState.Committed)).map
        (fun s => s.mem) =
      ((ss.filter (fun s => s.state = SlotState.Committed)).map (fun s => s.mem)).tail := by
  induction ss with
  | nil => rfl
  | cons s ss ih =>
    by_cases hs : s.state = SlotState.Committed
    · simp [take_committed, hs]
    · simp [take_committed, hs, ih]

theorem drain_eq_committed (fuel : Nat) (ch : Channel) (h : ch.committed.length ≤ fuel) :
    drain fuel ch = ch.committed := by
  induction fuel generalizing ch with
  | zero =>
    have : ch.committed = [] := List.length_eq_zero.mp (by omega)
    rw [this]; rfl
  | succ n ih =>
    have h1 := take_committed_fst ch.slots
    have h2 := take_committed_snd ch.slots
    cases hc : ch.committed with
    | nil =>
      have e : (take_committed ch.slots).1 = none := by
        rw [h1]; unfold Channel.committed at hc; rw [hc]; rfl
      simp [drain, read_next, e]
    | cons r rs =>
      have e : (take_committed ch.slots).1 = some r := by
        rw [h1]; unfold Channel.committed at hc; rw [hc]; rfl
      have e2 : Channel.committed ⟨ch.capacity, (take_committed ch.slots).2⟩ = rs := by
        unfold Channel.committed at hc ⊢
        simp only [h2, hc, List.tail_cons]
      have hl : (Channel.committed ⟨ch.capacity, (take_committed ch.slots).2⟩).length ≤ n := by
        rw [e2]; rw [hc] at h; simp at h; omega
      simp only [drain, read_next, e]
      rw [ih _ hl, e2]

/-! ## Single invocations -/

theorem trace_execve_fst (ctx : Nat) (env : Env) (w : World) :
    (trace_execve ctx env w).1 = 0 := by
  by_cases h : w.events.used + sizeof_process_event ≤ w.events.capacity
  · rw [trace_execve_room ctx env w h]
  · rw [trace_execve_full ctx env w (by omega)]

/-- C1: whatever the channel and the execution context, `trace_execve` (a total
function) returns 0: the invocation whose reservation fails stops after that one call,
the invocation whose reservation succeeds runs its five helper calls, and both
return 0. -/
theorem trace_execve_returns_zero (ctx : Nat) (env : Env) (w : World) :
    (trace_execve ctx env w).1 = 0 ∧
    ((bpf_ringbuf_reserve env w sizeof_process_event 0).1 = none ∧
        trace_execve ctx env w =
          (0, ⟨w.events, w.calls ++ [Call.ringbuf_reserve sizeof_process_event 0]⟩) ∨
      (bpf_ringbuf_reserve env w sizeof_process_event 0).1.isSome = true ∧
        (trace_execve ctx env w).1 = 0 ∧
        (trace_execve ctx env w).2.calls = w.calls ++ calls_on_success) := by
  refine ⟨trace_execve_fst ctx env w, ?_⟩
  by_cases h : w.events.used + sizeof_process_event ≤ w.events.capacity
  · right
    rw [reserve_isSome_iff, trace_execve_room ctx env w h]
    exact ⟨h, rfl, rfl⟩
  · left
    rw [reserve_none_iff]
    exact ⟨by omega, trace_execve_full ctx env w (by omega)⟩

/-- C2: when reserving the 24-byte slot fails, one invocation returns 0 and leaves the
channel exactly as it was (same committed records, same reserved slots), and the only
helper call it issued is the single reservation attempt. -/
theorem trace_execve_no_space (ctx : Nat) (env : Env) (w : World)
    (h : (bpf_ringbuf_reserve env w sizeof_process_event 0).1 = none) :
    (trace_execve ctx env w).1 = 0 ∧
    (trace_execve ctx env w).2.events = w.events ∧
    (trace_execve ctx env w).2.events.committed = w.events.committed ∧
    (trace_execve ctx env w).2.events.reserved = w.events.reserved ∧
    (trace_execve ctx env w).2.calls =
      w.calls ++ [Call.ringbuf_reserve sizeof_process_event 0] := by
  rw [reserve_none_iff] at h
  rw [trace_execve_full ctx env w h]
  exact ⟨rfl, rfl, rfl, rfl, rfl⟩

/-- C2 at a concrete input: the full 48-byte channel of `world_full`. -/
theorem trace_execve_no_space_witness :
    (bpf_ringbuf_reserve env_long world_full sizeof_process_event 0).1 = none ∧
    (trace_execve 0 env_long world_full).1 = 0 ∧
    (trace_execve 0 env_long world_full).2.events = world_full.events ∧
    (trace_execve 0 env_long world_full).2.events.committed = world_full.events.committed ∧
    (trace_execve 0 env_long world_full).2.events.reserved = world_full.events.reserved ∧
    (trace_execve 0 env_long world_full).2.calls =
      world_full.calls ++ [Call.ringbuf_reserve sizeof_process_event 0] :=
  ⟨by decide, trace_execve_no_space 0 env_long world_full (by decide)⟩

theorem trace_execve_events_room (ctx : Nat) (env : Env) (w : World)
    (h : (bpf_ringbuf_reserve env w sizeof_process_event 0).1.isSome = true) :
    (trace_execve ctx env w).2.events =
      ⟨w.events.capacity, w.events.slots ++ [⟨SlotState.Committed, record_of env⟩]⟩ := by
  rw [reserve_isSome_iff] at h
  rw [trace_execve_room ctx env w h]

theorem last_event_room (ctx : Nat) (env : Env) (w : World)
    (h : (bpf_ringbuf_reserve env w sizeof_process_event 0).1.isSome = true) :
    last_event (trace_execve ctx env w).2 =
      some ⟨pid_of env, uid_of env, comm_bytes env.comm COMM_LEN⟩ := by
  unfold last_event
  rw [trace_execve_events_room ctx env w h, committed_append_committed]
  simp only [List.getLast?_concat, Option.some_bind, record_of, decode_encode]
  rw [Nat.mod_eq_of_lt (pid_of_lt env), Nat.mod_eq_of_lt (uid_of_lt env)]

/-- C4: when the reservation succeeds, the record the invocation commits is
`le_bytes4 pid ++ le_bytes4 uid ++ comm`: 24 bytes, the little-endian `pid` at 0..3, the
little-endian `uid` at 4..7, the 16 command-name bytes at 8..23; and the resulting
channel is the same whatever bytes the reserved slot held before. -/
theorem committed_record_layout (ctx : Nat) (env : Env) (w : World)
    (h : (bpf_ringbuf_reserve env w sizeof_process_event 0).1.isSome = true) :
    (trace_execve ctx env w).2.events.committed =
      w.events.committed ++
        [le_bytes4 (pid_of env) ++ le_bytes4 (uid_of env) ++ comm_bytes env.comm 16] ∧
    (le_bytes4 (pid_of env) ++ le_bytes4 (uid_of env) ++ comm_bytes env.comm 16).length = 24 ∧
    (le_bytes4 (pid_of env)).length = 4 ∧
    (le_bytes4 (uid_of env)).length = 4 ∧
    (comm_bytes env.comm 16).length = 16 ∧
    ∀ stale : List Nat,
      (trace_execve ctx ⟨env.pid_tgid, env.uid_gid, env.comm, stale⟩ w).2.events =
        (trace_execve ctx env w).2.events := by
  refine ⟨?_, record_of_length env, rfl, rfl, comm_bytes_length _ _, ?_⟩
  · rw [trace_execve_events_room ctx env w h, committed_append_committed]
    rfl
  · intro stale
    have h2 : (bpf_ringbuf_reserve ⟨env.pid_tgid, env.uid_gid, env.comm, stale⟩ w
        sizeof_process_event 0).1.isSome = true := by
      rw [reserve_isSome_iff] at h ⊢
      exact h
    rw [trace_execve_events_room ctx env w h, trace_execve_events_room ctx _ w h2]
    rfl

/-- C4 at a concrete input: `bash` run by process 100 on the empty channel, the slot
holding stale bytes. -/
theorem committed_record_layout_witness :
    (bpf_ringbuf_reserve env_bash world_attached sizeof_process_event 0).1.isSome = true ∧
    (trace_execve 0 env_bash world_attached).2.events.committed =
      [[100, 0, 0, 0, 0, 0, 0, 0, 98, 97, 115, 104, 0, 0, 0, 0, 0, 0, 0, 0, 0, 0, 0, 0]] :=
  ⟨by decide, (committed_record_layout 0 env_bash world_attached (by decide)).1.trans
    (by decide)⟩

/-- C5: when the reservation succeeds the hook returns 0 and the command name decoded
from the committed record has 16 bytes: the original bytes followed by zero padding when
the name has at most 16 bytes, the first 16 bytes of the original when it is longer.
Only `List.take 16` of the name is copied, so no byte outside the name is read. -/
theorem command_name_truncate_pad (ctx : Nat) (env : Env) (w : World)
    (h : (bpf_ringbuf_reserve env w sizeof_process_event 0).1.isSome = true) :
    (trace_execve ctx env w).1 = 0 ∧
    last_event (trace_execve ctx env w).2 =
      some ⟨pid_of env, uid_of env,
        if env.comm.length ≤ 16 then
          env.comm ++ List.replicate (16 - env.comm.length) 0
        else
          env.comm.take 16⟩ ∧
    (comm_bytes env.comm 16).length = 16 ∧
    comm_bytes env.comm 16 =
      env.comm.take (min 16 env.comm.length) ++ List.replicate (16 - env.comm.length) 0 := by
  refine ⟨trace_execve_fst ctx env w, ?_, comm_bytes_length _ _, ?_⟩
  · rw [last_event_room ctx env w h]
    by_cases hl : env.comm.length ≤ 16
    · rw [if_pos hl, comm_bytes_short env.comm hl]; rfl
    · rw [if_neg hl, comm_bytes_long env.comm (by simpa [COMM_LEN] using hl)]; rfl
  · unfold comm_bytes
    congr 1
    by_cases hl : env.comm.length ≤ 16
    · rw [Nat.min_eq_right hl, List.take_of_length_le hl, List.take_of_length_le (le_refl _)]
    · rw [Nat.min_eq_left (by omega)]

/-- C5 at the input of the scenario: pid 4242, uid 1000, `this-name-is-too-long`
decodes to the first 16 bytes, `this-name-is-too`. -/
theorem command_name_truncate_pad_witness :
    (bpf_ringbuf_reserve env_long world_attached sizeof_process_event 0).1.isSome = true ∧
    (trace_execve 0 env_long world_attached).1 = 0 ∧
    last_event (trace_execve 0 env_long world_attached).2 =
      some ⟨4242, 1000,
        [116, 104, 105, 115, 45, 110, 97, 109, 101, 45, 105, 115, 45, 116, 111, 111]⟩ :=
  ⟨by decide, (command_name_truncate_pad 0 env_long world_attached (by decide)).1,
    (command_name_truncate_pad 0 env_long world_attached (by decide)).2.1.trans (by decide)⟩

/-- C6: for `pid`, `uid` below `2^32` and a command name of at most 16 bytes, the record
of the event decodes to the same `pid`, the same `uid` and the name zero-padded to
exactly 16 bytes; so does the record the hook commits in a context of that process
(any thread id) and user (any group id). -/
theorem encode_decode_roundtrip (ctx : Nat) (w : World) (pid uid tid gid : Nat)
    (name stale : List Nat) (hpid : pid < 2 ^ 32) (huid : uid < 2 ^ 32)
    (htid : tid < 2 ^ 32) (hgid : gid < 2 ^ 32) (hname : name.length ≤ 16)
    (h : (bpf_ringbuf_reserve ⟨pid * 2 ^ 32 + tid, gid * 2 ^ 32 + uid, name, stale⟩ w
      sizeof_process_event 0).1.isSome = true) :
    decode_event (encode_event pid uid name) =
      some ⟨pid, uid, name ++ List.replicate (16 - name.length) 0⟩ ∧
    (name ++ List.replicate (16 - name.length) 0).length = 16 ∧
    last_event (trace_execve ctx ⟨pid * 2 ^ 32 + tid, gid * 2 ^ 32 + uid, name, stale⟩ w).2 =
      some ⟨pid, uid, name ++ List.replicate (16 - name.length) 0⟩ := by
  have hp : pid_of ⟨pid * 2 ^ 32 + tid, gid * 2 ^ 32 + uid, name, stale⟩ = pid := by
    rw [pid_of_eq _ (by show pid * 2 ^ 32 + tid < 2 ^ 64; omega)]
    show (pid * 2 ^ 32 + tid) / 2 ^ 32 = pid
    omega
  have hu : uid_of ⟨pid * 2 ^ 32 + tid, gid * 2 ^ 32 + uid, name, stale⟩ = uid := by
    rw [uid_of_eq _ (by show gid * 2 ^ 32 + uid < 2 ^ 64; omega)]
    show (gid * 2 ^ 32 + uid) % 2 ^ 32 = uid
    omega
  refine ⟨?_, ?_, ?_⟩
  · rw [decode_encode, Nat.mod_eq_of_lt hpid, Nat.mod_eq_of_lt huid,
      comm_bytes_short name hname]
    rfl
  · simp; omega
  · rw [last_event_room ctx _ w h, hp, hu]
    show some (ProcessEvent.mk pid uid (comm_bytes name COMM_LEN)) = _
    rw [comm_bytes_short name hname]
    rfl

/-- C6 at the input of the spec: `{pid=100, uid=0, command_name="bash"}`. -/
theorem encode_decode_roundtrip_witness :
    decode_event (encode_event 100 0 [98, 97, 115, 104]) =
      some ⟨100, 0, [98, 97, 115, 104, 0, 0, 0, 0, 0, 0, 0, 0, 0, 0, 0, 0]⟩ ∧
    last_event (trace_execve 0 ⟨100 * 2 ^ 32 + 7, 0 * 2 ^ 32 + 0, [98, 97, 115, 104], []⟩
      world_attached).2 =
      some ⟨100, 0, [98, 97, 115, 104, 0, 0, 0, 0, 0, 0, 0, 0, 0, 0, 0, 0]⟩ :=
  ⟨(encode_decode_roundtrip 0 world_attached 100 0 7 0 [98, 97, 115, 104] []
      (by decide) (by decide) (by decide) (by decide) (by decide) (by decide)).1,
    (encode_decode_roundtrip 0 world_attached 100 0 7 0 [98, 97, 115, 104] []
      (by decide) (by decide) (by decide) (by decide) (by decide) (by decide)).2.2⟩

/-- C10: for 64-bit helper values, the committed record decodes to
`pid = pid_tgid / 2^32` and `uid = uid_gid % 2^32`, both below `2^32` (the shifted value
fits the `u32` field unchanged), and replacing the low 32 bits of `pid_tgid` and the
high 32 bits of `uid_gid` by anything leaves the resulting channel the same. -/
theorem pid_uid_selection (ctx : Nat) (env : Env) (w : World)
    (hp : env.pid_tgid < 2 ^ 64) (hu : env.uid_gid < 2 ^ 64)
    (h : (bpf_ringbuf_reserve env w sizeof_process_event 0).1.isSome = true) :
    last_event (trace_execve ctx env w).2 =
      some ⟨env.pid_tgid / 2 ^ 32, env.uid_gid % 2 ^ 32, comm_bytes env.comm 16⟩ ∧
    (trace_execve ctx env w).2.events.committed =
      w.events.committed ++
        [le_bytes4 (env.pid_tgid / 2 ^ 32) ++ le_bytes4 (env.uid_gid % 2 ^ 32) ++
          comm_bytes env.comm 16] ∧
    env.pid_tgid / 2 ^ 32 < 2 ^ 32 ∧
    (env.pid_tgid >>> 32) % 2 ^ 32 = env.pid_tgid >>> 32 ∧
    env.uid_gid % 2 ^ 32 < 2 ^ 32 ∧
    ∀ tid gid : Nat,
      (trace_execve ctx
        ⟨env.pid_tgid / 2 ^ 32 * 2 ^ 32 + tid % 2 ^ 32,
          gid % 2 ^ 32 * 2 ^ 32 + env.uid_gid % 2 ^ 32, env.comm, env.stale⟩ w).2.events =
        (trace_execve ctx env w).2.events := by
  have e1 := pid_of_eq env hp
  have e2 := uid_of_eq env hu
  refine ⟨?_, ?_, by omega, ?_, by omega, ?_⟩
  · rw [last_event_room ctx env w h, e1, e2]; rfl
  · rw [trace_execve_events_room ctx env w h, committed_append_committed, record_of,
      encode_event, e1, e2]
    rfl
  · rw [Nat.shiftRight_eq_div_pow]
    apply Nat.mod_eq_of_lt
    omega
  · intro tid gid
    have h2 : (bpf_ringbuf_reserve
        ⟨env.pid_tgid / 2 ^ 32 * 2 ^ 32 + tid % 2 ^ 32,
          gid % 2 ^ 32 * 2 ^ 32 + env.uid_gid % 2 ^ 32, env.comm, env.stale⟩ w
        sizeof_process_event 0).1.isSome = true := by
      rw [reserve_isSome_iff] at h ⊢
      exact h
    rw [trace_execve_events_room ctx env w h, trace_execve_events_room ctx _ w h2]
    have p1 : pid_of ⟨env.pid_tgid / 2 ^ 32 * 2 ^ 32 + tid % 2 ^ 32,
        gid % 2 ^ 32 * 2 ^ 32 + env.uid_gid % 2 ^ 32, env.comm, env.stale⟩ = pid_of env := by
      rw [pid_of_eq _ (by show env.pid_tgid / 2 ^ 32 * 2 ^ 32 + tid % 2 ^ 32 < 2 ^ 64; omega), e1]
      show (env.pid_tgid / 2 ^ 32 * 2 ^ 32 + tid % 2 ^ 32) / 2 ^ 32 = _
      omega
    have p2 : uid_of ⟨env.pid_tgid / 2 ^ 32 * 2 ^ 32 + tid % 2 ^ 32,
        gid % 2 ^ 32 * 2 ^ 32 + env.uid_gid % 2 ^ 32, env.comm, env.stale⟩ = uid_of env := by
      rw [uid_of_eq _ (by show gid % 2 ^ 32 * 2 ^ 32 + env.uid_gid % 2 ^ 32 < 2 ^ 64; omega), e2]
      show (gid % 2 ^ 32 * 2 ^ 32 + env.uid_gid % 2 ^ 32) % 2 ^ 32 = _
      omega
    simp only [record_of, p1, p2]

/-- C10 at a concrete input: `pid_tgid = 4242 * 2^32 + 4250`, `uid_gid = 50 * 2^32 + 1000`
give `pid = 4242` and `uid = 1000`. -/
theorem pid_uid_selection_witness :
    env_long.pid_tgid < 2 ^ 64 ∧ env_long.uid_gid < 2 ^ 64 ∧
    (bpf_ringbuf_reserve env_long world_attached sizeof_process_event 0).1.isSome = true ∧
    last_event (trace_execve 0 env_long world_attached).2 =
      some ⟨4242, 1000,
        [116, 104, 105, 115, 45, 110, 97, 109, 101, 45, 105, 115, 45, 116, 111, 111]⟩ :=
  ⟨by decide, by decide, by decide,
    (pid_uid_selection 0 env_long world_attached (by decide) (by decide) (by decide)).1.trans
      (by decide)⟩

/-! ## Sequences of invocations -/

theorem run_ops_append (a b : List Op) (w : World) :
    run_ops (a ++ b) w = run_ops b (run_ops a w) := by
  induction a generalizing w with
  | nil => rfl
  | cons op a ih => simp [run_ops, ih]

theorem trace_execve_events_full (ctx : Nat) (env : Env) (w : World)
    (h : ¬ (w.events.used + sizeof_process_event ≤ w.events.capacity)) :
    (trace_execve ctx env w).2.events = w.events := by
  rw [trace_execve_full ctx env w (by omega)]

theorem trace_execve_events_of_room (ctx : Nat) (env : Env) (w : World)
    (h : w.events.used + sizeof_process_event ≤ w.events.capacity) :
    (trace_execve ctx env w).2.events =
      ⟨w.events.capacity, w.events.slots ++ [committed_slot env]⟩ := by
  rw [trace_execve_room ctx env w h]; rfl

theorem committed_append_slots (cap : Nat) (ss : List Slot) (envs : List (Nat × Env)) :
    Channel.committed ⟨cap, ss ++ envs.map (fun i => committed_slot i.2)⟩ =
      Channel.committed ⟨cap, ss⟩ ++ envs.map (fun i => record_of i.2) := by
  induction envs generalizing ss with
  | nil => simp
  | cons e es ih =>
    have := ih (ss ++ [committed_slot e.2])
    simp only [List.map_cons, List.append_assoc, List.singleton_append] at this ⊢
    rw [this]
    simp [Channel.committed, List.filter_append, committed_slot]

theorem run_hooks_sublist (invs : List (Nat × Env)) (w : World) :
    ∃ done : List (Nat × Env), done.Sublist invs ∧
      (run_ops (hooks invs) w).events =
        ⟨w.events.capacity, w.events.slots ++ done.map (fun i => committed_slot i.2)⟩ := by
  induction invs generalizing w with
  | nil => exact ⟨[], List.Sublist.refl _, by simp [hooks, run_ops]⟩
  | cons i invs ih =>
    obtain ⟨done, hs, he⟩ := ih (trace_execve i.1 i.2 w).2
    by_cases h : w.events.used + sizeof_process_event ≤ w.events.capacity
    · refine ⟨i :: done, hs.cons₂ i, ?_⟩
      have e : run_ops (hooks (i :: invs)) w = run_ops (hooks invs) (trace_execve i.1 i.2 w).2 :=
        rfl
      rw [e, he, trace_execve_events_of_room i.1 i.2 w h]
      simp
    · refine ⟨done, hs.cons i, ?_⟩
      have e : run_ops (hooks (i :: invs)) w = run_ops (hooks invs) (trace_execve i.1 i.2 w).2 :=
        rfl
      rw [e, he, trace_execve_events_full i.1 i.2 w h]

/-- C3: when the reservation succeeds, one invocation appends exactly one committed
slot, holding the record of the capture, after all slots the channel had (so after
all previously committed records, which stay as they were), and no further slot is
reserved.  No invocation commits more than one record, and after any sequence of
invocations by a single producer the consumer reads, after the records that were
there, the records of the invocations that were not dropped, in invocation order. -/
theorem trace_execve_appends_one (ctx : Nat) (env : Env) (w : World)
    (h : (bpf_ringbuf_reserve env w sizeof_process_event 0).1.isSome = true) :
    (trace_execve ctx env w).2.events.capacity = w.events.capacity ∧
    (trace_execve ctx env w).2.events.slots = w.events.slots ++ [committed_slot env] ∧
    (trace_execve ctx env w).2.events.committed = w.events.committed ++ [record_of env] ∧
    (trace_execve ctx env w).2.events.reserved = w.events.reserved ∧
    (∀ (c : Nat) (e : Env) (v : World),
      (trace_execve c e v).2.events.committed.length ≤ v.events.committed.length + 1) ∧
    (∀ (invs : List (Nat × Env)) (v : World), ∃ done : List (Nat × Env),
      done.Sublist invs ∧
      (run_ops (hooks invs) v).events.reserved = v.events.reserved ∧
      (run_ops (hooks invs) v).events.committed =
        v.events.committed ++ done.map (fun i => record_of i.2) ∧
      ∀ n : Nat,
        drain ((run_ops (hooks invs) v).events.committed.length + n)
            (run_ops (hooks invs) v).events =
          v.events.committed ++ done.map (fun i => record_of i.2)) := by
  have he := trace_execve_events_room ctx env w h
  refine ⟨by rw [he], by rw [he]; rfl, by rw [he, committed_append_committed],
    by rw [he, reserved_append_committed], ?_, ?_⟩
  · intro c e v
    by_cases hr : v.events.used + sizeof_process_event ≤ v.events.capacity
    · rw [trace_execve_events_of_room c e v hr]
      have := committed_append_committed v.events (record_of e)
      unfold committed_slot
      rw [this]; simp
    · rw [trace_execve_events_full c e v hr]; omega
  · intro invs v
    obtain ⟨done, hs, hd⟩ := run_hooks_sublist invs v
    have hc : (run_ops (hooks invs) v).events.committed =
        v.events.committed ++ done.map (fun i => record_of i.2) := by
      rw [hd, committed_append_slots]
    refine ⟨done, hs, ?_, hc, ?_⟩
    · rw [hd]
      simp [Channel.reserved, List.filter_append, committed_slot, List.filter_map,
        Function.comp_def]
    · intro n
      rw [drain_eq_committed _ _ (by omega), hc]

/-- C3 at a concrete input: `bash` captured on a channel that already holds a
committed record and a slot reserved by someone else. -/
theorem trace_execve_appends_one_witness :
    (bpf_ringbuf_reserve env_bash
      ⟨⟨96, world_full.events.slots⟩, []⟩ sizeof_process_event 0).1.isSome = true ∧
    (trace_execve 0 env_bash ⟨⟨96, world_full.events.slots⟩, []⟩).2.events.slots =
      world_full.events.slots ++ [committed_slot env_bash] :=
  ⟨by decide,
    (trace_execve_appends_one 0 env_bash ⟨⟨96, world_full.events.slots⟩, []⟩
      (by decide)).2.1⟩

/-! ## The capacity bound -/

theorem take_committed_mem (ss : List Slot) (s : Slot) (h : s ∈ (take_committed ss).2) :
    s ∈ ss := by
  induction ss with
  | nil => simp [take_committed] at h
  | cons x xs ih =>
    by_cases hx : x.state = SlotState.Committed
    · simp [take_committed, hx] at h
      exact List.mem_cons_of_mem _ h
    · simp [take_committed, hx] at h
      rcases h with h | h
      · rw [h]; exact List.mem_cons_self _ _
      · exact List.mem_cons_of_mem _ (ih h)

theorem take_committed_used (ss : List Slot) :
    (((take_committed ss).2).map (fun s => s.mem.length)).sum ≤
      (ss.map (fun s => s.mem.length)).sum := by
  induction ss with
  | nil => simp [take_committed]
  | cons x xs ih =>
    by_cases hx : x.state = SlotState.Committed
    · simp [take_committed, hx]
    · simp [take_committed, hx]; exact ih

theorem used_of_records (ss : List Slot)
    (h : ∀ s ∈ ss, s.state = SlotState.Committed ∧ s.mem.length = sizeof_process_event) :
    (ss.map (fun s => s.mem.length)).sum = sizeof_process_event * ss.length := by
  induction ss with
  | nil => rfl
  | cons x xs ih =>
    have hx := (h x (List.mem_cons_self _ _)).2
    have := ih (fun s hs => h s (List.mem_cons_of_mem _ hs))
    simp only [List.map_cons, List.sum_cons, List.length_cons, this, hx]
    ring

theorem inv_create (C : Nat) : single_producer_inv C (Channel.create C) := by
  refine ⟨rfl, ?_, ?_⟩
  · intro s hs; simp [Channel.create] at hs
  · simp [Channel.create, Channel.used]

theorem inv_hook (C ctx : Nat) (env : Env) (w : World) (h : single_producer_inv C w.events) :
    single_producer_inv C (trace_execve ctx env w).2.events := by
  by_cases hr : w.events.used + sizeof_process_event ≤ w.events.capacity
  · rw [trace_execve_events_of_room ctx env w hr]
    obtain ⟨hc, hs, hu⟩ := h
    refine ⟨hc, ?_, ?_⟩
    · intro s hmem
      simp only [List.mem_append, List.mem_singleton] at hmem
      rcases hmem with hmem | hmem
      · exact hs s hmem
      · rw [hmem]; exact ⟨rfl, record_of_length env⟩
    · rw [used_append]
      show w.events.used + (record_of env).length ≤ C
      rw [record_of_length, ← hc]
      exact hr
  · rw [trace_execve_events_full ctx env w hr]; exact h

theorem inv_read (C : Nat) (ch : Channel) (h : single_producer_inv C ch) :
    single_producer_inv C (read_next ch).2 := by
  obtain ⟨hc, hs, hu⟩ := h
  refine ⟨hc, ?_, ?_⟩
  · intro s hmem
    exact hs s (take_committed_mem ch.slots s hmem)
  · exact le_trans (take_committed_used ch.slots) hu

theorem inv_run (C : Nat) (ops : List Op) (w : World) (h : single_producer_inv C w.events) :
    single_producer_inv C (run_ops ops w).events := by
  induction ops generalizing w with
  | nil => exact h
  | cons op ops ih =>
    cases op with
    | hook ctx env => exact ih _ (inv_hook C ctx env w h)
    | read => exact ih _ (inv_read C w.events h)

theorem inv_bound (C : Nat) (ch : Channel) (h : single_producer_inv C ch) :
    ch.committed.length ≤ C / sizeof_process_event := by
  obtain ⟨_, hs, hu⟩ := h
  have h1 : ch.committed.length ≤ ch.slots.length := by
    unfold Channel.committed
    rw [List.length_map]
    exact List.length_filter_le _ _
  have h2 : ch.used = sizeof_process_event * ch.slots.length := used_of_records ch.slots hs
  have h3 : ch.slots.length ≤ C / sizeof_process_event := by
    rw [Nat.le_div_iff_mul_le (by decide)]
    rw [h2] at hu
    rw [Nat.mul_comm]; exact hu
  omega

theorem returns_all_zero (ops : List Op) (w : World) :
    returns_of ops w = List.replicate (hook_count ops) 0 := by
  induction ops generalizing w with
  | nil => rfl
  | cons op ops ih =>
    cases op with
    | hook ctx env =>
      simp only [returns_of, step_op, hook_count, List.replicate_succ, ih,
        trace_execve_fst]
    | read => simp only [returns_of, step_op, hook_count, ih]

/-- C7: starting from the empty channel of capacity `C`, after every prefix of every
sequence of hook invocations (single producer) and consumer reads, the committed,
unconsumed records number at most `C / 24`; every hook invocation of the sequence
returns 0; for the configured capacity 262144 the bound is 10922.  This holds for
every number of invocations, in particular when `N * 24` exceeds `C`. -/
theorem committed_never_exceeds_capacity (C : Nat) (calls : List Call) (ops : List Op) :
    (∀ k : Nat,
      (run_ops (ops.take k) ⟨Channel.create C, calls⟩).events.committed.length ≤ C / 24) ∧
    returns_of ops ⟨Channel.create C, calls⟩ = List.replicate (hook_count ops) 0 ∧
    (returns_of ops ⟨Channel.create C, calls⟩).length = hook_count ops ∧
    (∀ k : Nat,
      (run_ops (ops.take k) ⟨events, calls⟩).events.committed.length ≤ 10922) := by
  refine ⟨?_, returns_all_zero _ _, ?_, ?_⟩
  · intro k
    exact inv_bound C _ (inv_run C _ _ (inv_create C))
  · rw [returns_all_zero]; simp
  · intro k
    exact inv_bound MAX_ENTRIES _ (inv_run MAX_ENTRIES _ _ (inv_create MAX_ENTRIES))

/-! ## Filling the channel -/

theorem used_committed_slots (cap : Nat) (l : List (Nat × Env)) :
    Channel.used ⟨cap, l.map (fun i => committed_slot i.2)⟩ =
      sizeof_process_event * l.length := by
  induction l with
  | nil => rfl
  | cons x xs ih =>
    simp only [Channel.used, List.map_cons, List.sum_cons, List.length_cons] at ih ⊢
    rw [ih]
    show (record_of x.2).length + _ = _
    rw [record_of_length]
    simp only [sizeof_process_event, COMM_LEN]
    omega

theorem run_hooks_room (invs : List (Nat × Env)) (w : World)
    (h : w.events.used + sizeof_process_event * invs.length ≤ w.events.capacity) :
    (run_ops (hooks invs) w).events =
      ⟨w.events.capacity, w.events.slots ++ invs.map (fun i => committed_slot i.2)⟩ := by
  induction invs generalizing w with
  | nil => simp [hooks, run_ops]
  | cons i invs ih =>
    have e : run_ops (hooks (i :: invs)) w = run_ops (hooks invs) (trace_execve i.1 i.2 w).2 :=
      rfl
    simp only [List.length_cons] at h
    have hr : w.events.used + sizeof_process_event ≤ w.events.capacity := by
      have : sizeof_process_event * (invs.length + 1) =
          sizeof_process_event * invs.length + sizeof_process_event := by ring
      omega
    have he := trace_execve_events_of_room i.1 i.2 w hr
    have hu : (trace_execve i.1 i.2 w).2.events.used = w.events.used + sizeof_process_event := by
      rw [he, used_append]
      show w.events.used + (record_of i.2).length = _
      rw [record_of_length]; rfl
    have hc : (trace_execve i.1 i.2 w).2.events.capacity = w.events.capacity := by rw [he]
    have := ih (trace_execve i.1 i.2 w).2 (by
      rw [hu, hc]
      have : sizeof_process_event * (invs.length + 1) =
          sizeof_process_event * invs.length + sizeof_process_event := by ring
      omega)
    rw [e, this, hc, he]
    simp

theorem run_hooks_attach (C : Nat) (calls : List Call) (l : List (Nat × Env))
    (h : sizeof_process_event * l.length ≤ C) :
    (run_ops (hooks l) (World.attach C calls)).events =
      ⟨C, l.map (fun i => committed_slot i.2)⟩ := by
  have := run_hooks_room l (World.attach C calls) (by
    show 0 + sizeof_process_event * l.length ≤ C
    omega)
  rw [this]
  simp [World.attach, Channel.create]

/-- C8: on an initially empty channel of exactly `k * 24` bytes (`k ≥ 1`) and with no
consumption in between, each of the first `k` invocations reserves and commits its
record; the reservation of invocation `k + 1` fails and that invocation leaves the
channel as it was; the consumer then reads the oldest record, after which the next
reservation succeeds and its record is committed behind the remaining ones. -/
theorem fill_drop_drain_refill (k : Nat) (hk : 1 ≤ k) (invs : List (Nat × Env))
    (hlen : invs.length = k) (c1 c2 : Nat) (e1 e2 : Env) (calls : List Call) :
    (∀ i : Nat,
      (run_ops (hooks (invs.take i)) (World.attach (k * 24) calls)).events.slots =
        (invs.take i).map (fun x => committed_slot x.2)) ∧
    (∀ (i : Nat) (hi : i < invs.length),
      (bpf_ringbuf_reserve invs[i].2
        (run_ops (hooks (invs.take i)) (World.attach (k * 24) calls))
        sizeof_process_event 0).1.isSome = true) ∧
    (run_ops (hooks invs) (World.attach (k * 24) calls)).events.committed =
      invs.map (fun x => record_of x.2) ∧
    (bpf_ringbuf_reserve e1 (run_ops (hooks invs) (World.attach (k * 24) calls))
      sizeof_process_event 0).1 = none ∧
    (run_ops (hooks invs ++ [Op.hook c1 e1]) (World.attach (k * 24) calls)).events =
      (run_ops (hooks invs) (World.attach (k * 24) calls)).events ∧
    (read_next
      (run_ops (hooks invs ++ [Op.hook c1 e1]) (World.attach (k * 24) calls)).events).1 =
      invs.head?.map (fun x => record_of x.2) ∧
    (bpf_ringbuf_reserve e2
      (run_ops (hooks invs ++ [Op.hook c1 e1, Op.read]) (World.attach (k * 24) calls))
      sizeof_process_event 0).1.isSome = true ∧
    (run_ops (hooks invs ++ [Op.hook c1 e1, Op.read, Op.hook c2 e2])
      (World.attach (k * 24) calls)).events.committed =
      (invs.drop 1).map (fun x => record_of x.2) ++ [record_of e2] := by
  have hsz : sizeof_process_event = 24 := rfl
  have hA : ∀ l : List (Nat × Env), l.length ≤ k →
      (run_ops (hooks l) (World.attach (k * 24) calls)).events =
        ⟨k * 24, l.map (fun i => committed_slot i.2)⟩ := by
    intro l hl
    exact run_hooks_attach (k * 24) calls l (by rw [hsz]; omega)
  have hk' := hA invs (by omega)
  have hfull : ¬ ((run_ops (hooks invs) (World.attach (k * 24) calls)).events.used +
      sizeof_process_event ≤
      (run_ops (hooks invs) (World.attach (k * 24) calls)).events.capacity) := by
    rw [hk', used_committed_slots, hsz, hlen]
    show ¬ (24 * k + 24 ≤ k * 24)
    omega
  have hdrop : (run_ops (hooks invs ++ [Op.hook c1 e1]) (World.attach (k * 24) calls)).events =
      (run_ops (hooks invs) (World.attach (k * 24) calls)).events := by
    rw [run_ops_append]
    exact trace_execve_events_full c1 e1 _ hfull
  obtain ⟨x, rest, hx⟩ : ∃ x rest, invs = x :: rest := by
    cases invs with
    | nil => simp at hlen; omega
    | cons x rest => exact ⟨x, rest, rfl⟩
  have hread : (run_ops (hooks invs ++ [Op.hook c1 e1, Op.read])
      (World.attach (k * 24) calls)).events =
      ⟨k * 24, rest.map (fun i => committed_slot i.2)⟩ := by
    have : hooks invs ++ [Op.hook c1 e1, Op.read] =
        (hooks invs ++ [Op.hook c1 e1]) ++ [Op.read] := by simp
    rw [this, run_ops_append]
    show (read_next (run_ops (hooks invs ++ [Op.hook c1 e1])
      (World.attach (k * 24) calls)).events).2 = _
    rw [hdrop, hk', hx]
    simp [read_next, take_committed, committed_slot]
  have hroom : (run_ops (hooks invs ++ [Op.hook c1 e1, Op.read])
      (World.attach (k * 24) calls)).events.used + sizeof_process_event ≤
      (run_ops (hooks invs ++ [Op.hook c1 e1, Op.read])
      (World.attach (k * 24) calls)).events.capacity := by
    rw [hread, used_committed_slots, hsz]
    have : rest.length + 1 = k := by rw [← hlen, hx]; rfl
    show 24 * rest.length + 24 ≤ k * 24
    omega
  refine ⟨?_, ?_, ?_, ?_, hdrop, ?_, ?_, ?_⟩
  · intro i
    rw [hA _ (by rw [List.length_take]; omega)]
  · intro i hi
    rw [reserve_isSome_iff, hA _ (by rw [List.length_take]; omega), used_committed_slots,
      List.length_take, hsz]
    show 24 * min i invs.length + 24 ≤ k * 24
    rw [Nat.min_eq_left (by omega)]
    omega
  · rw [hk']
    have := committed_append_slots (k * 24) [] invs
    simpa [Channel.committed] using this
  · rw [reserve_none_iff]; omega
  · rw [hdrop, hk', hx]
    simp [read_next, take_committed, committed_slot]
  · rw [reserve_isSome_iff]; exact hroom
  · have : hooks invs ++ [Op.hook c1 e1, Op.read, Op.hook c2 e2] =
        (hooks invs ++ [Op.hook c1 e1, Op.read]) ++ [Op.hook c2 e2] := by simp
    rw [this, run_ops_append]
    show (trace_execve c2 e2 _).2.events.committed = _
    rw [trace_execve_events_of_room c2 e2 _ hroom, hread, hx]
    have := committed_append_slots (k * 24) [] (rest ++ [(c2, e2)])
    simpa [Channel.committed, committed_slot] using this

/-- C8 at the input of the scenario: capacity 48 bytes, `k = 2`; invocations 1 and 2
commit, invocation 3 is dropped, and after one read invocation 4 commits. -/
theorem fill_drop_drain_refill_witness :
    (run_ops (hooks [(0, env_bash), (0, env_long)])
      (World.attach 48 [])).events.committed = [record_of env_bash, record_of env_long] ∧
    (bpf_ringbuf_reserve env_bash
      (run_ops (hooks [(0, env_bash), (0, env_long)]) (World.attach 48 []))
      sizeof_process_event 0).1 = none ∧
    (run_ops (hooks [(0, env_bash), (0, env_long)] ++ [Op.hook 0 env_bash])
      (World.attach 48 [])).events.committed = [record_of env_bash, record_of env_long] ∧
    (run_ops (hooks [(0, env_bash), (0, env_long)] ++
        [Op.hook 0 env_bash, Op.read, Op.hook 0 env_long])
      (World.attach 48 [])).events.committed = [record_of env_long, record_of env_long] :=
  ⟨(fill_drop_drain_refill 2 (by decide) [(0, env_bash), (0, env_long)] rfl 0 0
      env_bash env_long []).2.2.1,
    (fill_drop_drain_refill 2 (by decide) [(0, env_bash), (0, env_long)] rfl 0 0
      env_bash env_long []).2.2.2.1,
    by decide,
    (fill_drop_drain_refill 2 (by decide) [(0, env_bash), (0, env_long)] rfl 0 0
      env_bash env_long []).2.2.2.2.2.2.2⟩

/-! ## Concurrent producers -/

theorem modify_slot_append_right (g : Slot → Slot) (base l : List Slot) (p : Nat) :
    modify_slot g (base ++ l) (base.length + p) = base ++ modify_slot g l p := by
  induction base with
  | nil => simp
  | cons b bs ih =>
    have : (b :: bs).length + p = (bs.length + p) + 1 := by simp; omega
    rw [this]
    simp [modify_slot, ih]

theorem modify_slot_map_owner (g : Slot → Slot) (f f' : Nat → Slot) (owners : List Nat)
    (hnd : owners.Nodup) (p : Nat) (hp : p < owners.length) (i : Nat)
    (hi : owners[p] = i) (hfi : f' i = g (f i)) (hfo : ∀ j, j ≠ i → f' j = f j) :
    modify_slot g (owners.map f) p = owners.map f' := by
  induction owners generalizing p with
  | nil => simp at hp
  | cons a t ih =>
    rw [List.nodup_cons] at hnd
    cases p with
    | zero =>
      simp only [List.getElem_cons_zero] at hi
      subst hi
      simp only [List.map_cons, modify_slot, hfi]
      congr 1
      apply List.map_congr_left
      intro j hj
      exact (hfo j (fun h => hnd.1 (h ▸ hj))).symm
    | succ q =>
      simp only [List.getElem_cons_succ] at hi
      have hq : q < t.length := by simpa using hp
      have hmem : i ∈ t := hi ▸ List.getElem_mem hq
      have ha : a ≠ i := fun h => hnd.1 (h ▸ hmem)
      simp only [List.map_cons, modify_slot, hfo a ha]
      rw [ih hnd.2 q hq hi]

theorem nodup_bounded_length (l : List Nat) (M : Nat) (hnd : l.Nodup)
    (hb : ∀ i ∈ l, i < M) : l.length ≤ M := by
  have hs : l ⊆ List.range M := fun i hi => List.mem_range.mpr (hb i hi)
  have := (List.subperm_of_subset hnd hs).length_le
  simpa using this

theorem write_bytes_length (mem : List Nat) (off : Nat) (bs : List Nat) :
    (write_bytes mem off bs).length = mem.length := by
  unfold write_bytes
  by_cases h : off + bs.length ≤ mem.length
  · rw [if_pos h]
    simp only [List.length_append, List.length_take, List.length_drop]
    omega
  · rw [if_neg h]

theorem slot_at_length (env : Env) (pc : Pc) (h : pc ≠ Pc.entry) :
    (slot_at env pc).mem.length = sizeof_process_event := by
  cases pc with
  | entry => exact absurd rfl h
  | reserved e => exact fresh_mem_length _ _
  | pid_stored e =>
    show (write_bytes _ _ _).length = _
    rw [write_bytes_length]; exact fresh_mem_length _ _
  | uid_stored e =>
    show (write_bytes _ _ _).length = _
    rw [write_bytes_length, write_bytes_length]; exact fresh_mem_length _ _
  | comm_stored e => exact record_of_length env
  | returned r => exact record_of_length env

theorem owns_ne_entry (pc : Pc) (e : Nat) (h : owns pc e) : pc ≠ Pc.entry := by
  intro hpc
  rw [hpc] at h
  exact h

theorem used_append_list (cap : Nat) (base l : List Slot) :
    Channel.used ⟨cap, base ++ l⟩ =
      Channel.used ⟨cap, base⟩ + (l.map (fun s => s.mem.length)).sum := by
  simp [Channel.used]

theorem sum_lengths_map (f : Nat → Slot) (l : List Nat)
    (h : ∀ i ∈ l, (f i).mem.length = sizeof_process_event) :
    ((l.map f).map (fun s => s.mem.length)).sum = sizeof_process_event * l.length := by
  induction l with
  | nil => rfl
  | cons a t ih =>
    simp only [List.map_cons, List.sum_cons, List.length_cons]
    rw [h a (List.mem_cons_self _ _), ih (fun i hi => h i (List.mem_cons_of_mem _ hi))]
    ring

theorem conc_inv_used (M : Nat) (envs : Nat → Env) (w0 : World) (s : Sys) (owners : List Nat)
    (h : conc_inv M envs w0 s owners) :
    s.world.events.used = w0.events.used + sizeof_process_event * owners.length := by
  obtain ⟨_, _, _, hs, _, ho⟩ := h
  have e : s.world.events.used = Channel.used ⟨s.world.events.capacity, s.world.events.slots⟩ :=
    rfl
  rw [e, hs, used_append_list]
  congr 1
  have hall : ∀ i ∈ owners, (slot_at (envs i) (s.pcs i)).mem.length = sizeof_process_event := by
    intro i hi
    obtain ⟨p, hp, hpi⟩ := List.getElem_of_mem hi
    have := ho p hp
    rw [hpi] at this
    exact slot_at_length _ _ (owns_ne_entry _ _ this)
  exact sum_lengths_map _ owners hall

theorem owns_unique (pc : Pc) (e e' : Nat) (h : owns pc e) (h' : owns pc e')
    (hnr : ∀ r, pc ≠ Pc.returned r) : e = e' := by
  cases pc with
  | entry => exact absurd h id
  | reserved x => exact h.symm.trans h'
  | pid_stored x => exact h.symm.trans h'
  | uid_stored x => exact h.symm.trans h'
  | comm_stored x => exact h.symm.trans h'
  | returned r => exact absurd rfl (hnr r)

theorem conc_inv_modify (M : Nat) (envs : Nat → Env) (w0 : World) (s : Sys)
    (owners : List Nat) (h : conc_inv M envs w0 s owners) (i : Nat) (pc' : Pc) (w' : World)
    (g : Slot → Slot) (e : Nat) (hpc : owns (s.pcs i) e) (hnr : ∀ r, s.pcs i ≠ Pc.returned r)
    (hcap : w'.events.capacity = s.world.events.capacity)
    (hslots : w'.events.slots = modify_slot g s.world.events.slots e)
    (hslot : slot_at (envs i) pc' = g (slot_at (envs i) (s.pcs i)))
    (hown : owns pc' e) :
    conc_inv M envs w0 ⟨fun j => if j = i then pc' else s.pcs j, w'⟩ owners := by
  obtain ⟨hnd, hb, hc, hs, he, ho⟩ := h
  have hmem : i ∈ owners := by
    by_contra hni
    exact owns_ne_entry _ _ hpc (he i hni)
  obtain ⟨p, hp, hpi⟩ := List.getElem_of_mem hmem
  have hep : e = w0.events.slots.length + p := by
    have := ho p hp
    rw [hpi] at this
    exact owns_unique _ _ _ hpc this hnr
  refine ⟨hnd, hb, hcap.trans hc, ?_, ?_, ?_⟩
  · show w'.events.slots = _
    rw [hslots, hs, hep, modify_slot_append_right]
    congr 1
    apply modify_slot_map_owner g _ _ owners hnd p hp i hpi
    · simp only [if_true]; exact hslot
    · intro j hj; simp only [if_neg hj]
  · intro j hj
    have hji : j ≠ i := fun hh => hj (hh ▸ hmem)
    show (if j = i then pc' else s.pcs j) = Pc.entry
    rw [if_neg hji]; exact he j hj
  · intro q hq
    show owns (if owners[q] = i then pc' else s.pcs owners[q]) _
    by_cases hqi : owners[q] = i
    · rw [if_pos hqi]
      have := ho q hq
      rw [hqi] at this
      have := owns_unique _ _ _ hpc this hnr
      rw [← this]; exact hown
    · rw [if_neg hqi]; exact ho q hq

theorem conc_inv_reserve (M : Nat) (envs : Nat → Env) (w0 : World) (s : Sys)
    (owners : List Nat) (h : conc_inv M envs w0 s owners) (i : Nat) (hi : i < M)
    (hpc : s.pcs i = Pc.entry)
    (hroom : w0.events.used + sizeof_process_event * M ≤ w0.events.capacity) :
    conc_inv M envs w0 (sched_step M envs i s) (owners ++ [i]) := by
  have hu := conc_inv_used M envs w0 s owners h
  obtain ⟨hnd, hb, hc, hs, he, ho⟩ := h
  have hni : i ∉ owners := by
    intro hmem
    obtain ⟨p, hp, hpi⟩ := List.getElem_of_mem hmem
    have := ho p hp
    rw [hpi] at this
    exact owns_ne_entry _ _ this hpc
  have hlen : owners.length + 1 ≤ M := by
    have := nodup_bounded_length (i :: owners) M (List.nodup_cons.mpr ⟨hni, hnd⟩) (by
      intro j hj
      rcases List.mem_cons.mp hj with hj | hj
      · rw [hj]; exact hi
      · exact hb j hj)
    simpa using this
  have hr : s.world.events.used + sizeof_process_event ≤ s.world.events.capacity := by
    rw [hu, hc]
    have : sizeof_process_event * (owners.length + 1) ≤ sizeof_process_event * M :=
      Nat.mul_le_mul_left _ hlen
    have e2 : sizeof_process_event * (owners.length + 1) =
        sizeof_process_event * owners.length + sizeof_process_event := by ring
    omega
  have hstep : hook_step (envs i) (s.pcs i) s.world =
      (Pc.reserved s.world.events.slots.length,
        (s.world.record (Call.ringbuf_reserve sizeof_process_event 0)).with_slots
          (s.world.events.slots ++
            [⟨SlotState.Reserved, fresh_mem (envs i).stale sizeof_process_event⟩])) := by
    rw [hpc]
    simp only [hook_step, bpf_ringbuf_reserve, if_pos hr]
  have hss : sched_step M envs i s =
      ⟨fun j => if j = i then (hook_step (envs i) (s.pcs i) s.world).1 else s.pcs j,
        (hook_step (envs i) (s.pcs i) s.world).2⟩ := by
    unfold sched_step; rw [if_pos hi]
  rw [hss, hstep]
  refine ⟨?_, ?_, hc, ?_, ?_, ?_⟩
  · exact List.nodup_append.mpr ⟨hnd, List.nodup_singleton i, by
      intro a ha hb'
      rw [List.mem_singleton] at hb'
      exact hni (hb' ▸ ha)⟩
  · intro j hj
    rcases List.mem_append.mp hj with hj | hj
    · exact hb j hj
    · rw [List.mem_singleton.mp hj]; exact hi
  · show s.world.events.slots ++ _ = _
    rw [hs, List.map_append, ← List.append_assoc]
    congr 1
    · congr 1
      apply List.map_congr_left
      intro j hj
      have hji : j ≠ i := fun hh => hni (hh ▸ hj)
      simp only [if_neg hji]
    · simp only [List.map_cons, List.map_nil, if_true]
      rfl
  · intro j hj
    have hji : j ≠ i := by
      intro hh
      apply hj
      rw [hh]
      exact List.mem_append_right _ (List.mem_singleton_self i)
    show (if j = i then _ else s.pcs j) = Pc.entry
    rw [if_neg hji]
    exact he j (fun hh => hj (List.mem_append_left _ hh))
  · intro q hq
    show owns (if (owners ++ [i])[q] = i then _ else s.pcs (owners ++ [i])[q]) _
    by_cases hql : q < owners.length
    · have e1 : (owners ++ [i])[q] = owners[q] := List.getElem_append_left hql
      have hne : owners[q] ≠ i := fun hh => hni (hh ▸ List.getElem_mem hql)
      rw [e1, if_neg hne]
      exact ho q hql
    · have hq2 : q = owners.length := by
        simp only [List.length_append, List.length_singleton] at hq
        omega
      subst hq2
      have e1 : (owners ++ [i])[owners.length] = i := by simp
      rw [e1, if_pos rfl]
      show s.world.events.slots.length = _
      rw [hs]; simp

theorem sched_step_eq (M : Nat) (envs : Nat → Env) (i : Nat) (s : Sys) (hi : i < M) :
    sched_step M envs i s =
      ⟨fun j => if j = i then (hook_step (envs i) (s.pcs i) s.world).1 else s.pcs j,
        (hook_step (envs i) (s.pcs i) s.world).2⟩ := by
  unfold sched_step; rw [if_pos hi]

theorem conc_inv_step (M : Nat) (envs : Nat → Env) (w0 : World) (s : Sys)
    (owners : List Nat) (h : conc_inv M envs w0 s owners) (i : Nat)
    (hroom : w0.events.used + sizeof_process_event * M ≤ w0.events.capacity) :
    ∃ owners', conc_inv M envs w0 (sched_step M envs i s) owners' := by
  by_cases hi : i < M
  · cases hpc : s.pcs i with
    | entry => exact ⟨_, conc_inv_reserve M envs w0 s owners h i hi hpc hroom⟩
    | reserved e =>
      refine ⟨owners, ?_⟩
      rw [sched_step_eq M envs i s hi, hpc]
      exact conc_inv_modify M envs w0 s owners h i (Pc.pid_stored e) _
        (fun sl => ⟨sl.state, write_bytes sl.mem PID_OFF
          (le_bytes4 ((((envs i).pid_tgid % 2 ^ 64) >>> 32) % 2 ^ 32))⟩) e
        (by rw [hpc]; rfl) (by rw [hpc]; intro r hr; cases hr) rfl rfl (by rw [hpc]; rfl) rfl
    | pid_stored e =>
      refine ⟨owners, ?_⟩
      rw [sched_step_eq M envs i s hi, hpc]
      exact conc_inv_modify M envs w0 s owners h i (Pc.uid_stored e) _
        (fun sl => ⟨sl.state, write_bytes sl.mem UID_OFF
          (le_bytes4 (((envs i).uid_gid % 2 ^ 64) % 2 ^ 32))⟩) e
        (by rw [hpc]; rfl) (by rw [hpc]; intro r hr; cases hr) rfl rfl (by rw [hpc]; rfl) rfl
    | uid_stored e =>
      refine ⟨owners, ?_⟩
      rw [sched_step_eq M envs i s hi, hpc]
      exact conc_inv_modify M envs w0 s owners h i (Pc.comm_stored e) _
        (fun sl => ⟨sl.state, write_bytes sl.mem COMM_OFF
          (comm_bytes (envs i).comm COMM_LEN)⟩) e
        (by rw [hpc]; rfl) (by rw [hpc]; intro r hr; cases hr) rfl rfl
        (by
          rw [hpc]
          show (⟨SlotState.Reserved, record_of (envs i)⟩ : Slot) = ⟨SlotState.Reserved, _⟩
          congr 1
          exact (write_record (fresh_mem (envs i).stale 24) (le_bytes4 (pid_of (envs i)))
            (le_bytes4 (uid_of (envs i))) (comm_bytes (envs i).comm 16)
            (fresh_mem_length _ _) rfl rfl (comm_bytes_length _ _)).symm) rfl
    | comm_stored e =>
      refine ⟨owners, ?_⟩
      rw [sched_step_eq M envs i s hi, hpc]
      exact conc_inv_modify M envs w0 s owners h i (Pc.returned 0) _
        (fun sl => ⟨SlotState.Committed, sl.mem⟩) e
        (by rw [hpc]; rfl) (by rw [hpc]; intro r hr; cases hr) rfl rfl (by rw [hpc]; rfl) rfl
    | returned r =>
      refine ⟨owners, ?_⟩
      have : sched_step M envs i s = s := by
        rw [sched_step_eq M envs i s hi, hpc]
        cases s with
        | mk pcs world =>
          simp only [hook_step]
          congr 1
          funext j
          by_cases hj : j = i
          · rw [if_pos hj, hj]; exact hpc.symm
          · rw [if_neg hj]
      rw [this]; exact h
  · refine ⟨owners, ?_⟩
    have : sched_step M envs i s = s := by
      unfold sched_step; rw [if_neg hi]
    rw [this]; exact h

theorem conc_inv_run (M : Nat) (envs : Nat → Env) (w0 : World)
    (hroom : w0.events.used + sizeof_process_event * M ≤ w0.events.capacity)
    (sch : List Nat) (s : Sys) (owners : List Nat) (h : conc_inv M envs w0 s owners) :
    ∃ owners', conc_inv M envs w0 (run_sched M envs sch s) owners' := by
  induction sch generalizing s owners with
  | nil => exact ⟨owners, h⟩
  | cons i sch ih =>
    obtain ⟨o1, h1⟩ := conc_inv_step M envs w0 s owners h i hroom
    exact ih _ o1 h1

theorem conc_inv_start (M : Nat) (envs : Nat → Env) (w0 : World) :
    conc_inv M envs w0 (Sys.start w0) [] := by
  refine ⟨List.nodup_nil, ?_, rfl, ?_, ?_, ?_⟩
  · intro i hi; simp at hi
  · simp [Sys.start]
  · intro i _; rfl
  · intro p hp; simp at hp

theorem hook_steps_trace_execve (ctx : Nat) (env : Env) (w : World) :
    hook_steps env 5 (Pc.entry, w) =
      (Pc.returned (trace_execve ctx env w).1, (trace_execve ctx env w).2) := by
  by_cases h : w.events.used + sizeof_process_event ≤ w.events.capacity
  · simp only [hook_steps, hook_step, trace_execve, bpf_ringbuf_reserve, if_pos h]
  · simp only [hook_steps, hook_step, trace_execve, bpf_ringbuf_reserve, if_neg h]

theorem slot_at_committed (env : Env) (pc : Pc)
    (h : (slot_at env pc).state = SlotState.Committed) :
    (slot_at env pc).mem = record_of env := by
  cases pc with
  | returned r => rfl
  | entry => cases h
  | reserved e => cases h
  | pid_stored e => cases h
  | uid_stored e => cases h
  | comm_stored e => cases h

theorem committed_map (cap : Nat) (f : Nat → Slot) (l : List Nat) :
    Channel.committed ⟨cap, l.map f⟩ =
      (l.filter (fun i => (f i).state = SlotState.Committed)).map (fun i => (f i).mem) := by
  induction l with
  | nil => rfl
  | cons a t ih =>
    unfold Channel.committed at ih ⊢
    by_cases ha : (f a).state = SlotState.Committed
    · simp only [List.map_cons, List.filter_cons, ha, decide_True, if_true, ih]
    · simp only [List.map_cons, List.filter_cons, ha, decide_False, if_false]
      exact ih

theorem committed_append (cap : Nat) (a b : List Slot) :
    Channel.committed ⟨cap, a ++ b⟩ =
      Channel.committed ⟨cap, a⟩ ++ Channel.committed ⟨cap, b⟩ := by
  simp [Channel.committed, List.filter_append]

/-- C9: `M` producers, each running the statements of `trace_execve` once, interleaved
in any order `sch`, on a channel with room for `M` records.  At every moment the
records visible to the consumer beyond those that were there are the complete
24-byte records of distinct producers.  Once all `M` have returned, each returned 0
and the channel holds, behind its earlier slots, exactly `M` committed slots: the
records of the `M` occurrences, one each, in the order of their reservations; the
consumer reads exactly these.  A producer running its five statements alone is
`trace_execve`. -/
theorem concurrent_producers_no_torn_records (M : Nat) (envs : Nat → Env) (w : World)
    (sch : List Nat)
    (hroom : w.events.used + sizeof_process_event * M ≤ w.events.capacity) :
    (∃ vis : List Nat, vis.Nodup ∧ (∀ i ∈ vis, i < M) ∧
      (run_sched M envs sch (Sys.start w)).world.events.committed =
        w.events.committed ++ vis.map (fun i => record_of (envs i))) ∧
    ((∀ i, i < M → ∃ r, (run_sched M envs sch (Sys.start w)).pcs i = Pc.returned r) →
      ∃ order : List Nat, order.Perm (List.range M) ∧ order.length = M ∧
        (∀ i, i < M → (run_sched M envs sch (Sys.start w)).pcs i = Pc.returned 0) ∧
        (run_sched M envs sch (Sys.start w)).world.events.slots =
          w.events.slots ++ order.map (fun i => committed_slot (envs i)) ∧
        (run_sched M envs sch (Sys.start w)).world.events.committed =
          w.events.committed ++ order.map (fun i => record_of (envs i)) ∧
        ∀ n : Nat,
          drain ((run_sched M envs sch (Sys.start w)).world.events.committed.length + n)
              (run_sched M envs sch (Sys.start w)).world.events =
            w.events.committed ++ order.map (fun i => record_of (envs i))) ∧
    (∀ i : Nat, (record_of (envs i)).length = 24) ∧
    (∀ (ctx : Nat) (env : Env) (v : World),
      hook_steps env 5 (Pc.entry, v) =
        (Pc.returned (trace_execve ctx env v).1, (trace_execve ctx env v).2)) := by
  obtain ⟨owners, hinv⟩ := conc_inv_run M envs w hroom sch (Sys.start w) [] (conc_inv_start M envs w)
  obtain ⟨hnd, hb, hc, hs, he, ho⟩ := hinv
  have hcom : ∀ ch : Channel, ch.committed = Channel.committed ⟨ch.capacity, ch.slots⟩ :=
    fun _ => rfl
  refine ⟨?_, ?_, fun i => record_of_length _, hook_steps_trace_execve⟩
  · refine ⟨owners.filter (fun i => (slot_at (envs i)
      ((run_sched M envs sch (Sys.start w)).pcs i)).state = SlotState.Committed),
      hnd.filter _, fun i hi => hb i (List.mem_filter.mp hi).1, ?_⟩
    rw [hcom, hs, committed_append, committed_map]
    congr 1
    apply List.map_congr_left
    intro i hi
    have := (List.mem_filter.mp hi).2
    exact slot_at_committed _ _ (by simpa using this)
  · intro hall
    have hmem : ∀ i, i < M → i ∈ owners := by
      intro i hi
      by_contra hni
      obtain ⟨r, hr⟩ := hall i hi
      rw [he i hni] at hr
      cases hr
    have hperm : owners.Perm (List.range M) := by
      rw [List.perm_ext_iff_of_nodup hnd (List.nodup_range M)]
      intro a
      rw [List.mem_range]
      exact ⟨hb a, hmem a⟩
    have hzero : ∀ i, i < M → (run_sched M envs sch (Sys.start w)).pcs i = Pc.returned 0 := by
      intro i hi
      obtain ⟨r, hr⟩ := hall i hi
      obtain ⟨p, hp, hpi⟩ := List.getElem_of_mem (hmem i hi)
      have := ho p hp
      rw [hpi, hr] at this
      rw [hr]
      exact congrArg Pc.returned this
    have hslots : (run_sched M envs sch (Sys.start w)).world.events.slots =
        w.events.slots ++ owners.map (fun i => committed_slot (envs i)) := by
      rw [hs]
      congr 1
      apply List.map_congr_left
      intro i hi
      rw [hzero i (hb i hi)]
      rfl
    have hcm : (run_sched M envs sch (Sys.start w)).world.events.committed =
        w.events.committed ++ owners.map (fun i => record_of (envs i)) := by
      rw [hcom, hslots, committed_append, committed_map]
      congr 1
      simp [committed_slot]
    refine ⟨owners, hperm, by simpa using hperm.length_eq, hzero, hslots, hcm, ?_⟩
    intro n
    rw [drain_eq_committed _ _ (by omega), hcm]

/-- C9 at a concrete input: two producers (`bash` and the long name) interleaved
statement by statement on the empty channel. -/
theorem concurrent_producers_no_torn_records_witness :
    world_attached.events.used + sizeof_process_event * 2 ≤ world_attached.events.capacity ∧
    (∀ i, i < 2 →
      ∃ r, (run_sched 2 two_envs two_sched (Sys.start world_attached)).pcs i = Pc.returned r) ∧
    (run_sched 2 two_envs two_sched (Sys.start world_attached)).world.events.committed =
      [record_of env_bash, record_of env_long] ∧
    ∃ order : List Nat, order.Perm (List.range 2) ∧
      (run_sched 2 two_envs two_sched (Sys.start world_attached)).world.events.committed =
        world_attached.events.committed ++ order.map (fun i => record_of (two_envs i)) :=
  have hall : ∀ i, i < 2 →
      ∃ r, (run_sched 2 two_envs two_sched (Sys.start world_attached)).pcs i = Pc.returned r :=
    fun i hi => ⟨0, by interval_cases i <;> decide⟩
  ⟨by decide, hall, by decide,
    (((concurrent_producers_no_torn_records 2 two_envs world_attached two_sched
      (by decide)).2.1 hall).imp fun _ h => ⟨h.1, h.2.2.2.2.1⟩)⟩

end SysRag
